import Mathlib

/-!
Shallow embedding of the devdrawdriver package (shiny Plan 9 draw driver)
and proofs about its codec, protocol client, event translator and blit
engine.  Byte strings are modelled as List Nat, machine integers as Nat
or Int with explicit reduction modulo 2 ^ w where the code truncates.
-/

namespace DevDraw

/-! ## Codec (lz77.go) -/

/-- Inner loop of the prefix search in lz77.go: compares the bytes at
positions idx + j and i + j for j = 0, 1, ... (at most 34 steps, counted
by fuel), updating the candidate state st = (candidateIdx, candidateSize)
whenever a longer match is found; candidateIdx is stored through a uint16
conversion, hence the reduction modulo 65536.  The Bool result records
the early return taken when candidateSize reaches 34. -/
def innerScan (pix : List Nat) (idx i : Nat) : Nat → Nat → Nat × Nat → Bool × Nat × Nat
  | 0, _, st => (false, st)
  | fuel+1, j, st =>
    if pix.length ≤ i + j then (false, st)
    else if pix.getD (idx + j) 0 = pix.getD (i + j) 0 then
      let st2 := if st.2 < j then (i % 65536, j) else st
      if st2.2 = 34 then (true, st2) else innerScan pix idx i fuel (j + 1) st2
    else (false, st)

/-- Outer loop of the prefix search in lz77.go: walks the candidate start
index i downwards while idx - i < 128, running the inner comparison loop
at every position whose first byte agrees with the byte at idx; the scan
is abandoned (leaving the state as is) when idx + 34 reaches the end of
the input. -/
def outerScan (pix : List Nat) (idx : Nat) (i : Nat) (st : Nat × Nat) : Bool × Nat × Nat :=
  if 128 ≤ idx - i then (false, st)
  else if pix.getD i 0 = pix.getD idx 0 then
    if pix.length ≤ idx + 34 then (false, st)
    else
      match innerScan pix idx i 34 0 st with
      | (true, st2) => (true, st2)
      | (false, st2) => if i = 0 then (false, st2) else outerScan pix idx (i - 1) st2
  else if i = 0 then (false, st) else outerScan pix idx (i - 1) st
termination_by i

/-- Embedding of getLargestPrefix from lz77.go: the backward scan starts
at idx - 34 (it is skipped entirely when idx < 34, matching the negative
initial loop index in the code) and the result is kept only when the
recorded candidate size exceeds 2. -/
def getLargestPrefix (pix : List Nat) (idx : Nat) : Nat × Nat :=
  if 34 ≤ idx then
    match outerScan pix idx (idx - 34) (0, 0) with
    | (true, st) => st
    | (false, st) => if 2 < st.2 then st else (0, 0)
  else (0, 0)

/-- Embedding of the main loop of compress from lz77.go, starting at
position i of pix.  A found prefix is emitted as a two byte back
reference token, otherwise a literal run of at most 128 bytes is
emitted. -/
def compressFrom (pix : List Nat) (i : Nat) : List Nat :=
  if h : i < pix.length then
    match hm : getLargestPrefix pix i with
    | (idx, size) =>
      if hsz : 2 < size then
        let encodedOffset := (i - idx) % 65536 - 1
        let e0 := ((size - 3) <<< 2) ||| ((encodedOffset &&& 0x0300) >>> 8)
        let e1 := encodedOffset &&& 0x00FF
        e0 :: e1 :: compressFrom pix (i + size)
      else
        if hleft : 128 ≤ pix.length - i then
          0xFF :: ((pix.drop i).take 128 ++ compressFrom pix (i + 128))
        else
          (0x80 ||| (pix.length - i - 1)) ::
            ((pix.drop i).take (pix.length - i) ++ compressFrom pix (i + (pix.length - i)))
  else []
termination_by pix.length - i
decreasing_by
  · omega
  · omega
  · omega

/-- Embedding of compress from lz77.go. -/
def compress (pix : List Nat) : List Nat := compressFrom pix 0

/-- Decoder state update for a back reference token, following the token
grammar stated in the specification: n previously decoded bytes are
copied one at a time, each taken dist positions back from the current
end of the output. -/
def copyBack (acc : List Nat) (dist : Nat) : Nat → List Nat
  | 0 => acc
  | n + 1 => copyBack (acc ++ [acc.getD (acc.length - dist) 0]) dist n

/-- Decoder for the compressed stream, following the token grammar stated
in the specification: a first byte with the high bit clear introduces a
two byte back reference (5 bits of length minus 3, 10 bits of distance
minus 1), a first byte with the high bit set introduces a literal run
whose low 7 bits give the run length minus 1. -/
def decompressAux : List Nat → List Nat → Option (List Nat)
  | [], acc => some acc
  | b0 :: rest, acc =>
    if b0 % 256 < 128 then
      match rest with
      | [] => none
      | b1 :: rest2 =>
        let n := ((b0 >>> 2) &&& 31) + 3
        let dist := (((b0 &&& 3) <<< 8) ||| (b1 % 256)) + 1
        if dist ≤ acc.length then decompressAux rest2 (copyBack acc dist n) else none
    else
      let n := (b0 &&& 127) + 1
      if n ≤ rest.length then decompressAux (rest.drop n) (acc ++ rest.take n) else none
termination_by c _ => c.length
decreasing_by
  · simp; omega
  · simp
    have : rest.length - n ≤ rest.length := Nat.sub_le _ _
    omega

/-- Decoder entry point for the grammar of the specification. -/
def decompress (c : List Nat) : Option (List Nat) := decompressAux c []

/-! ### Invariants of the prefix search -/

/-- Invariant carried by the candidate state of the scan: either the
state is still the initial sentinel, or it records a real earlier
occurrence ic of the bytes at idx, with the byte at idx + j equal to the
byte at ic + j for every j up to the recorded size. -/
def GoodSt (pix : List Nat) (idx : Nat) (st : Nat × Nat) : Prop :=
  st = (0, 0) ∨
    ∃ ic, st.1 = ic % 65536 ∧ ic + 34 ≤ idx ∧ idx ≤ ic + 127 ∧ idx + 34 < pix.length ∧
      st.2 ≤ 33 ∧ ∀ j ≤ st.2, pix.getD (idx + j) 0 = pix.getD (ic + j) 0

lemma goodSt_snd_le {pix : List Nat} {idx : Nat} {st : Nat × Nat}
    (h : GoodSt pix idx st) : st.2 ≤ 33 := by
  rcases h with h | ⟨ic, _, _, _, _, h5, _⟩
  · simp [h]
  · exact h5

lemma innerScan_good (pix : List Nat) (idx i : Nat)
    (hlo : i + 34 ≤ idx) (hhi : idx ≤ i + 127) (hlen : idx + 34 < pix.length) :
    ∀ fuel j st, fuel + j = 34 → GoodSt pix idx st →
      (∀ j2 < j, pix.getD (idx + j2) 0 = pix.getD (i + j2) 0) →
      ∃ st2, innerScan pix idx i fuel j st = (false, st2) ∧ GoodSt pix idx st2 := by
  intro fuel
  induction fuel with
  | zero => intro j st _ hst _; exact ⟨st, rfl, hst⟩
  | succ fuel ih =>
    intro j st hfj hst hmatch
    rw [innerScan]
    by_cases hb : pix.length ≤ i + j
    · simp only [if_pos hb]; exact ⟨st, rfl, hst⟩
    · simp only [if_neg hb]
      by_cases heq : pix.getD (idx + j) 0 = pix.getD (i + j) 0
      · simp only [if_pos heq]
        have hj33 : j ≤ 33 := by omega
        have hst2 : GoodSt pix idx (if st.2 < j then (i % 65536, j) else st) := by
          by_cases hlt : st.2 < j
          · simp only [if_pos hlt]
            refine Or.inr ⟨i, rfl, hlo, hhi, hlen, hj33, ?_⟩
            intro j2 hj2
            rcases Nat.lt_or_ge j2 j with h2 | h2
            · exact hmatch j2 h2
            · have : j2 = j := by omega
              subst this; exact heq
          · simp only [if_neg hlt]; exact hst
        have hne : ¬ (if st.2 < j then (i % 65536, j) else st).2 = 34 := by
          have := goodSt_snd_le hst2
          omega
        simp only [if_neg hne]
        refine ih (j + 1) _ (by omega) hst2 ?_
        intro j2 hj2
        rcases Nat.lt_or_ge j2 j with h2 | h2
        · exact hmatch j2 h2
        · have : j2 = j := by omega
          subst this; exact heq
      · simp only [if_neg heq]; exact ⟨st, rfl, hst⟩

lemma outerScan_good (pix : List Nat) (idx : Nat) :
    ∀ i st, i + 34 ≤ idx → GoodSt pix idx st →
      ∃ st2, outerScan pix idx i st = (false, st2) ∧ GoodSt pix idx st2 := by
  intro i
  induction i using Nat.strong_induction_on with
  | _ i ih =>
    intro st hlo hst
    rw [outerScan]
    by_cases h128 : 128 ≤ idx - i
    · simp only [if_pos h128]; exact ⟨st, rfl, hst⟩
    · simp only [if_neg h128]
      have hhi : idx ≤ i + 127 := by omega
      by_cases heq : pix.getD i 0 = pix.getD idx 0
      · simp only [if_pos heq]
        by_cases hlen : pix.length ≤ idx + 34
        · simp only [if_pos hlen]; exact ⟨st, rfl, hst⟩
        · simp only [if_neg hlen]
          obtain ⟨st2, hrun, hst2⟩ :=
            innerScan_good pix idx i hlo hhi (by omega) 34 0 st rfl hst (by omega)
          rw [hrun]
          by_cases hi0 : i = 0
          · simp only [if_pos hi0]; exact ⟨st2, rfl, hst2⟩
          · simp only [if_neg hi0]
            exact ih (i - 1) (by omega) st2 (by omega) hst2
      · simp only [if_neg heq]
        by_cases hi0 : i = 0
        · simp only [if_pos hi0]; exact ⟨st, rfl, hst⟩
        · simp only [if_neg hi0]
          exact ih (i - 1) (by omega) st (by omega) hst

/-- Case analysis on the result of getLargestPrefix: either the sentinel
is returned, or the result points (through the uint16 truncation) at a
real earlier occurrence at backward distance between 34 and 127, with a
recorded size between 3 and 33 and all bytes up to that size matching. -/
lemma glp_cases (pix : List Nat) (idx : Nat) :
    getLargestPrefix pix idx = (0, 0) ∨
      ∃ ic s, getLargestPrefix pix idx = (ic % 65536, s) ∧
        3 ≤ s ∧ s ≤ 33 ∧ ic + 34 ≤ idx ∧ idx ≤ ic + 127 ∧ idx + 34 < pix.length ∧
        ∀ j ≤ s, pix.getD (idx + j) 0 = pix.getD (ic + j) 0 := by
  rw [ getLargestPrefix]
  by_cases h34 : 34 ≤ idx
  · simp only [if_pos h34]
    obtain ⟨st2, hrun, hst2⟩ :=
      outerScan_good pix idx (idx - 34) (0, 0) (by omega) (Or.inl rfl)
    rw [hrun]
    by_cases h2 : 2 < st2.2
    · simp only [if_pos h2]
      rcases hst2 with h | ⟨ic, h1, hlo, hhi, hlen, h33, hmatch⟩
      · rw [h] at h2; omega
      · exact Or.inr ⟨ic, st2.2, by rw [← h1], by omega, h33, hlo, hhi, hlen, hmatch⟩
    · simp only [if_neg h2]
      exact Or.inl trivial
  · simp only [if_neg h34]
    exact Or.inl trivial

/-! ### Roundtrip of compress against the token grammar -/

lemma copyBack_eq (n : Nat) : ∀ acc : List Nat, ∀ dist, dist ≤ acc.length → n ≤ dist →
    copyBack acc dist n = acc ++ (acc.drop (acc.length - dist)).take n := by
  induction n with
  | zero => intro acc dist _ _; simp [copyBack]
  | succ n ih =>
    intro acc dist hd hn
    have hpos : acc.length - dist < acc.length := by omega
    have hgetD : acc.getD (acc.length - dist) 0 = acc.get ⟨acc.length - dist, hpos⟩ := by
      rw [List.getD_eq_getElem acc 0 hpos]; simp
    rw [copyBack, ih (acc ++ [acc.getD (acc.length - dist) 0]) dist (by simp; omega) (by omega)]
    have hlen2 : (acc ++ [acc.getD (acc.length - dist) 0]).length = acc.length + 1 := by simp
    rw [hlen2]
    have hk : acc.length + 1 - dist = (acc.length - dist) + 1 := by omega
    rw [hk]
    rw [List.drop_append_of_le_length (by omega)]
    have hdroplen : (acc.drop (acc.length - dist + 1)).length = dist - 1 := by
      simp; omega
    rw [List.take_append_of_le_length (by omega)]
    rw [List.drop_eq_getElem_cons hpos]
    simp only [List.take_succ_cons, hgetD]
    simp

lemma take_drop_congr (pix : List Nat) (a b s : Nat)
    (ha : a + s ≤ pix.length) (hb : b + s ≤ pix.length)
    (h : ∀ j < s, pix.getD (a + j) 0 = pix.getD (b + j) 0) :
    (pix.drop a).take s = (pix.drop b).take s := by
  apply List.ext_getElem
  · simp; omega
  · intro k h1 h2
    have hk : k < s := by simp at h1; omega
    have hka : a + k < pix.length := by omega
    have hkb : b + k < pix.length := by omega
    have := h k hk
    rw [List.getD_eq_getElem pix 0 hka, List.getD_eq_getElem pix 0 hkb] at this
    simpa [List.getElem_take, List.getElem_drop] using this

set_option maxRecDepth 4000 in
lemma and_768_eq_zero : ∀ a : Nat, a < 256 → a &&& 768 = 0 := by
  have h : ∀ a : Fin 256, a.val &&& 768 = 0 := by decide
  intro a ha; exact h ⟨a, ha⟩

set_option maxRecDepth 4000 in
lemma and_255_small : ∀ a : Nat, a < 256 → a &&& 255 = a := by
  have h : ∀ a : Fin 256, a.val &&& 255 = a.val := by decide
  intro a ha; exact h ⟨a, ha⟩

set_option maxRecDepth 4000 in
lemma backref_byte0 : ∀ x : Nat, x < 31 → (x <<< 2) < 128 ∧ ((x <<< 2) >>> 2) &&& 31 = x ∧
    (x <<< 2) &&& 3 = 0 := by
  have h : ∀ x : Fin 31, (x.val <<< 2) < 128 ∧ ((x.val <<< 2) >>> 2) &&& 31 = x.val ∧
      (x.val <<< 2) &&& 3 = 0 := by decide
  intro x hx; exact h ⟨x, hx⟩

set_option maxRecDepth 4000 in
lemma literal_byte0 : ∀ x : Nat, x < 128 → ¬ (128 ||| x) % 256 < 128 ∧
    (128 ||| x) &&& 127 = x := by
  have h : ∀ x : Fin 128, ¬ (128 ||| x.val) % 256 < 128 ∧ (128 ||| x.val) &&& 127 = x.val := by
    decide
  intro x hx; exact h ⟨x, hx⟩

lemma decompressAux_nil (acc : List Nat) : decompressAux [] acc = some acc := by
  rw [decompressAux.eq_def]

lemma decompressAux_cons (b0 : Nat) (rest acc : List Nat) :
    decompressAux (b0 :: rest) acc =
      if b0 % 256 < 128 then
        match rest with
        | [] => none
        | b1 :: rest2 =>
          if (((b0 &&& 3) <<< 8) ||| (b1 % 256)) + 1 ≤ acc.length then
            decompressAux rest2
              (copyBack acc ((((b0 &&& 3) <<< 8) ||| (b1 % 256)) + 1) (((b0 >>> 2) &&& 31) + 3))
          else none
      else
        if (b0 &&& 127) + 1 ≤ rest.length then
          decompressAux (rest.drop ((b0 &&& 127) + 1)) (acc ++ rest.take ((b0 &&& 127) + 1))
        else none := by
  rw [decompressAux.eq_def]

lemma decompressAux_compressFrom (pix : List Nat) :
    ∀ n i, pix.length - i ≤ n → i ≤ pix.length →
      decompressAux (compressFrom pix i) (pix.take i) = some pix := by
  intro n
  induction n with
  | zero =>
    intro i h1 h2
    have : i = pix.length := by omega
    subst this
    rw [compressFrom, dif_neg (by omega : ¬ pix.length < pix.length), decompressAux_nil,
      List.take_length]
  | succ n ih =>
    intro i h1 h2
    by_cases hend : i = pix.length
    · subst hend
      rw [compressFrom, dif_neg (by omega : ¬ pix.length < pix.length), decompressAux_nil,
        List.take_length]
    · have hi : i < pix.length := by omega
      rw [compressFrom]
      rcases hglp : getLargestPrefix pix i with ⟨c, s⟩
      simp only [dif_pos hi, hglp]
      rcases glp_cases pix i with hsent | ⟨ic, s2, heq, hs3, hs33, hlo, hhi, hlen, hmatch⟩
      · -- sentinel case: the literal branch is taken
        rw [hglp] at hsent
        have hc0 : c = 0 := by simpa using congrArg Prod.fst hsent
        have hs0 : s = 0 := by simpa using congrArg Prod.snd hsent
        have hnot : ¬ 2 < s := by omega
        simp only [dif_neg hnot]
        by_cases h128 : 128 ≤ pix.length - i
        · simp only [dif_pos h128]
          have hchunk : ((pix.drop i).take 128).length = 128 := by simp; omega
          rw [decompressAux_cons]
          have h255 : ¬ (255 : Nat) % 256 < 128 := by decide
          simp only [if_neg h255]
          have hn : ((255 : Nat) &&& 127) + 1 = 128 := by decide
          rw [hn]
          have hlen2 : 128 ≤ ((pix.drop i).take 128 ++ compressFrom pix (i + 128)).length := by
            rw [List.length_append, hchunk]; omega
          have hdropchunk : ((pix.drop i).take 128).drop 128 = [] := by
            apply List.drop_eq_nil_of_le
            omega
          rw [if_pos hlen2,
            List.drop_append_of_le_length (by omega),
            List.take_append_of_le_length (by omega),
            hdropchunk, List.nil_append,
            List.take_of_length_le (le_of_eq hchunk),
            ← List.take_add]
          exact ih (i + 128) (by omega) (by omega)
        · simp only [dif_neg h128]
          have hleft1 : 1 ≤ pix.length - i := by omega
          have hleft127 : pix.length - i < 128 := by omega
          have hchunk : ((pix.drop i).take (pix.length - i)).length = pix.length - i := by
            simp
          rw [decompressAux_cons]
          obtain ⟨hb0, hb0and⟩ := literal_byte0 (pix.length - i - 1) (by omega)
          rw [if_neg hb0, hb0and]
          have hleftsum : pix.length - i - 1 + 1 = pix.length - i := by omega
          rw [hleftsum]
          have hlen2 : pix.length - i ≤
              ((pix.drop i).take (pix.length - i) ++ compressFrom pix (i + (pix.length - i))).length := by
            rw [List.length_append, hchunk]; omega
          have hdropchunk : ((pix.drop i).take (pix.length - i)).drop (pix.length - i) = [] := by
            apply List.drop_eq_nil_of_le
            omega
          rw [if_pos hlen2,
            List.drop_append_of_le_length (by omega),
            List.take_append_of_le_length (by omega),
            hdropchunk, List.nil_append,
            List.take_of_length_le (le_of_eq hchunk),
            ← List.take_add]
          exact ih (i + (pix.length - i)) (by omega) (by omega)
      · -- back reference case
        rw [hglp] at heq
        have hc : c = ic % 65536 := by simpa using congrArg Prod.fst heq
        have hs : s = s2 := by simpa using congrArg Prod.snd heq
        subst hs
        have h2s : 2 < s := by omega
        simp only [dif_pos h2s]
        have hic : ic ≤ i := by omega
        have hoff : (i - c) % 65536 = i - ic := by
          rw [hc]; omega
        rw [hoff]
        obtain ⟨hlt128, hdec, hand3⟩ := backref_byte0 (s - 3) (by omega)
        rw [decompressAux_cons]
        have hzero : (i - ic - 1) &&& 768 = 0 := and_768_eq_zero (i - ic - 1) (by omega)
        have hb0mod : ((s - 3) <<< 2 ||| ((i - ic - 1) &&& 768) >>> 8) % 256 < 128 := by
          rw [hzero]
          simp only [Nat.zero_shiftRight, Nat.or_zero]
          rw [Nat.mod_eq_of_lt (by omega)]
          exact hlt128
        rw [if_pos hb0mod, hzero]
        simp only [Nat.zero_shiftRight, Nat.or_zero]
        rw [hdec, and_255_small (i - ic - 1) (by omega), hand3]
        have hsum : s - 3 + 3 = s := by omega
        rw [hsum]
        have he1mod : (i - ic - 1) % 256 = i - ic - 1 := Nat.mod_eq_of_lt (by omega)
        rw [he1mod]
        simp only [Nat.zero_shiftLeft, Nat.zero_or]
        have hdist : i - ic - 1 + 1 = i - ic := by omega
        rw [hdist]
        have hacclen : (pix.take i).length = i := by simp; omega
        have hdle : i - ic ≤ (pix.take i).length := by omega
        rw [if_pos hdle]
        rw [copyBack_eq s (pix.take i) (i - ic) hdle (by omega), hacclen]
        have hsub : i - (i - ic) = ic := by omega
        rw [hsub, List.drop_take, List.take_take]
        have hmins : min s (i - ic) = s := by omega
        rw [hmins]
        have hcongr : (pix.drop ic).take s = (pix.drop i).take s := by
          apply take_drop_congr pix ic i s (by omega) (by omega)
          intro j hj
          exact (hmatch j (by omega)).symm
        rw [hcongr, ← List.take_add]
        exact ih (i + s) (by omega) (by omega)

/-- C2: for every input byte string pix, decoding the output of
compress pix according to the token grammar of the codec reconstructs
pix exactly. -/
theorem compress_roundtrip (pix : List Nat) : decompress (compress pix) = some pix := by
  have := decompressAux_compressFrom pix pix.length 0 (by omega) (by omega)
  simpa [decompress, compress] using this

/-! ### Range and sentinel behaviour of the prefix search (C3) -/

/-- Predicate transcribing the wording of the specification for C3: some
match of length at least 3 exists for position idx, entirely inside the
input, starting within the 128 byte lookback window. -/
def specMatchExists (pix : List Nat) (idx : Nat) : Prop :=
  ∃ ic < idx, idx - ic ≤ 128 ∧ idx + 3 ≤ pix.length ∧
    ∀ j < 3, pix.getD (idx + j) 0 = pix.getD (ic + j) 0

/-- C3 counterexample: on nine repeated bytes the byte triple at
position 3 also occurs at position 0, well inside the lookback window,
yet getLargestPrefix returns the (0, 0) sentinel (the scan never
considers distances below 34 and requires the position to be at least
34), so the sentinel is not equivalent to the absence of a match. -/
theorem getLargestPrefix_sentinel_cex :
    specMatchExists (List.replicate 9 9) 3 ∧
      getLargestPrefix (List.replicate 9 9) 3 = (0, 0) := by
  constructor
  · exact ⟨0, by decide, by decide, by decide, by decide⟩
  · decide

/-- C3 amended: getLargestPrefix never returns a length outside the set
containing 0 and the interval from 3 to 34, and whenever no match of
length at least 3 exists within the window it returns the (0, 0)
sentinel (equivalently, a non sentinel result implies such a match
exists); the converse direction of the claimed equivalence is refuted by
the counterexample. -/
theorem getLargestPrefix_range_and_sentinel (pix : List Nat) (idx : Nat) :
    ( getLargestPrefix pix idx = (0, 0) ∨
      (3 ≤ ( getLargestPrefix pix idx).2 ∧ ( getLargestPrefix pix idx).2 ≤ 34)) ∧
    ( getLargestPrefix pix idx ≠ (0, 0) → specMatchExists pix idx) := by
  rcases glp_cases pix idx with h | ⟨ic, s, heq, hs3, hs33, hlo, hhi, hlen, hmatch⟩
  · exact ⟨Or.inl h, fun hne => absurd h hne⟩
  · constructor
    · right
      rw [heq]
      exact ⟨hs3, by omega⟩
    · intro _
      refine ⟨ic, by omega, by omega, by omega, ?_⟩
      intro j hj
      exact hmatch j (by omega)

/-! ### Size bound of compress (C10) -/

lemma compressFrom_length (pix : List Nat) :
    ∀ n i, pix.length - i ≤ n →
      (compressFrom pix i).length ≤ (pix.length - i) + (pix.length - i + 127) / 128 := by
  intro n
  induction n with
  | zero =>
    intro i h1
    rw [compressFrom, dif_neg (by omega : ¬ i < pix.length)]
    simp
  | succ n ih =>
    intro i h1
    by_cases hi : i < pix.length
    · rw [compressFrom]
      rcases hglp : getLargestPrefix pix i with ⟨c, s⟩
      simp only [dif_pos hi, hglp]
      rcases glp_cases pix i with hsent | ⟨ic, s2, heq, hs3, hs33, hlo, hhi, hlen, hmatch⟩
      · rw [hglp] at hsent
        have hs0 : s = 0 := by simpa using congrArg Prod.snd hsent
        have hnot : ¬ 2 < s := by omega
        simp only [dif_neg hnot]
        by_cases h128 : 128 ≤ pix.length - i
        · simp only [dif_pos h128]
          have hchunk : ((pix.drop i).take 128).length = 128 := by simp; omega
          have hrec := ih (i + 128) (by omega)
          simp only [List.length_cons, List.length_append, hchunk]
          omega
        · simp only [dif_neg h128]
          have hchunk : ((pix.drop i).take (pix.length - i)).length = pix.length - i := by
            simp
          have hrec := ih (i + (pix.length - i)) (by omega)
          simp only [List.length_cons, List.length_append, hchunk]
          omega
      · rw [hglp] at heq
        have hs : s = s2 := by simpa using congrArg Prod.snd heq
        subst hs
        have h2s : 2 < s := by omega
        simp only [dif_pos h2s]
        have hrec := ih (i + s) (by omega)
        simp only [List.length_cons]
        omega
    · rw [compressFrom, dif_neg hi]
      simp

/-- C10: compress never expands its input by more than one header byte
per 128 input bytes. -/
theorem compress_length_bound (pix : List Nat) :
    (compress pix).length ≤ pix.length + (pix.length + 127) / 128 := by
  have := compressFrom_length pix pix.length 0 (by omega)
  simpa [compress] using this

/-! ## Event translator (wctl.go, mouseEventHandler) -/

inductive MButton where
  | left
  | middle
  | right
  | wheelUp
  | wheelDown
  | noButton
deriving DecidableEq

inductive MDir where
  | press
  | release
  | noChange
deriving DecidableEq

/-- A translated mouse event: the record coordinates together with the
button and direction (wctl.go builds mouse.Event values with exactly
these fields). -/
structure MEvent where
  x : Int
  y : Int
  button : MButton
  dir : MDir
deriving DecidableEq

/-- Embedding of the m record handling of mouseEventHandler in
wctl.go: the ten transition checks in source order (left press, left
release, middle press, middle release, right press, right release,
wheel up press, wheel up release, wheel down press, wheel down release)
each append one event, and a single moved no button event is emitted
when none fired (the sentEvt flag of the code corresponds to the event
list being nonempty).  prev is the stored previous mask and buttons the
mask parsed from the record. -/
def mouseEvents (prev buttons : Nat) (x y : Int) : List MEvent :=
  let evs : List MEvent := []
  let evs := if buttons &&& 1 ≠ 0 ∧ prev &&& 1 = 0 then evs ++ [⟨x, y, .left, .press⟩] else evs
  let evs := if buttons &&& 1 = 0 ∧ prev &&& 1 ≠ 0 then evs ++ [⟨x, y, .left, .release⟩] else evs
  let evs := if buttons &&& 2 ≠ 0 ∧ prev &&& 2 = 0 then evs ++ [⟨x, y, .middle, .press⟩] else evs
  let evs := if buttons &&& 2 = 0 ∧ prev &&& 2 ≠ 0 then evs ++ [⟨x, y, .middle, .release⟩] else evs
  let evs := if buttons &&& 4 ≠ 0 ∧ prev &&& 4 = 0 then evs ++ [⟨x, y, .right, .press⟩] else evs
  let evs := if buttons &&& 4 = 0 ∧ prev &&& 4 ≠ 0 then evs ++ [⟨x, y, .right, .release⟩] else evs
  let evs := if buttons &&& 8 ≠ 0 ∧ prev &&& 8 = 0 then evs ++ [⟨x, y, .wheelUp, .press⟩] else evs
  let evs := if buttons &&& 8 = 0 ∧ prev &&& 8 ≠ 0 then evs ++ [⟨x, y, .wheelUp, .release⟩] else evs
  let evs :=
    if buttons &&& 16 ≠ 0 ∧ prev &&& 16 = 0 then evs ++ [⟨x, y, .wheelDown, .press⟩] else evs
  let evs :=
    if buttons &&& 16 = 0 ∧ prev &&& 16 ≠ 0 then evs ++ [⟨x, y, .wheelDown, .release⟩] else evs
  if evs = [] then [⟨x, y, .noButton, .noChange⟩] else evs

/-- Consecutive polls of the mouse loop: each record emits its events
and then the previous mask is updated to the record mask. -/
def runPolls (prev : Nat) : List (Nat × Int × Int) → List MEvent
  | [] => []
  | (b, x, y) :: rest => mouseEvents prev b x y ++ runPolls b rest

/-- The five tracked bits in the fixed check order of the specification:
left, middle, right, wheel up, wheel down. -/
def orderedButtons : List (Nat × MButton) :=
  [(1, .left), (2, .middle), (4, .right), (8, .wheelUp), (16, .wheelDown)]

/-- Event list as worded in the specification for C4: for each tracked
bit in the fixed order, a press when the bit is newly set and a release
when it is newly cleared, all carrying the record coordinates, and
exactly one moved no button event when no tracked bit changed. -/
def specMouseEvents (prev buttons : Nat) (x y : Int) : List MEvent :=
  let l := orderedButtons.filterMap fun p =>
    if buttons &&& p.1 ≠ 0 ∧ prev &&& p.1 = 0 then some ⟨x, y, p.2, .press⟩
    else if buttons &&& p.1 = 0 ∧ prev &&& p.1 ≠ 0 then some ⟨x, y, p.2, .release⟩
    else none
  if l = [] then [⟨x, y, .noButton, .noChange⟩] else l

lemma if_append (c : Prop) [Decidable c] (evs : List MEvent) (e : MEvent) :
    (if c then evs ++ [e] else evs) = evs ++ (if c then [e] else []) := by
  split <;> simp

lemma filterMap_cons_toList {α β : Type} (f : α → Option β) (a : α) (l : List α) :
    List.filterMap f (a :: l) = (f a).toList ++ List.filterMap f l := by
  cases h : f a <;> simp [h]

lemma seg_eq (prev buttons bm : Nat) (x y : Int) (btn : MButton) :
    (if buttons &&& bm ≠ 0 ∧ prev &&& bm = 0 then [(⟨x, y, btn, .press⟩ : MEvent)] else []) ++
      (if buttons &&& bm = 0 ∧ prev &&& bm ≠ 0 then [(⟨x, y, btn, .release⟩ : MEvent)]
        else []) =
    (if buttons &&& bm ≠ 0 ∧ prev &&& bm = 0 then some (⟨x, y, btn, .press⟩ : MEvent)
      else if buttons &&& bm = 0 ∧ prev &&& bm ≠ 0 then some ⟨x, y, btn, .release⟩
      else none).toList := by
  by_cases h1 : buttons &&& bm = 0 <;> by_cases h2 : prev &&& bm = 0 <;> simp [h1, h2]

/-- C4: the translator emits exactly the press and release events of the
changed bits in the fixed check order (or one moved no button event when
nothing changed), and the mask sequence 0, 1, 3, 0 yields exactly left
press, middle press, left release, middle release with the coordinates
of each record. -/
theorem mouseEvents_correct :
    (∀ prev buttons : Nat, ∀ x y : Int,
        mouseEvents prev buttons x y = specMouseEvents prev buttons x y) ∧
    runPolls 0 [(1, 10, 20), (3, 11, 21), (0, 12, 22)] =
      [⟨10, 20, .left, .press⟩, ⟨11, 21, .middle, .press⟩,
        ⟨12, 22, .left, .release⟩, ⟨12, 22, .middle, .release⟩] := by
  constructor
  · intro prev buttons x y
    simp only [mouseEvents, if_append, List.nil_append]
    simp only [specMouseEvents, orderedButtons, filterMap_cons_toList, List.filterMap_nil,
      List.append_nil]
    simp only [← seg_eq]
    simp [List.append_assoc]
  · decide

/-! ## Protocol client (drawctl.go): geometry and wire helpers -/

/-- An integer point, as image.Point. -/
structure Pt where
  x : Int
  y : Int
deriving DecidableEq

/-- An integer rectangle given by its min and max corners, as
image.Rectangle. -/
structure Rect where
  min : Pt
  max : Pt
deriving DecidableEq

/-- Little endian encoding of the low 32 bits of a value, as produced by
binary.LittleEndian.PutUint32; for Go int arguments the uint32
conversion reduces the value modulo 2 ^ 32 (twos complement). -/
def u32le (x : Int) : List Nat :=
  let v := (x % 4294967296).toNat
  [v % 256, v / 256 % 256, v / 65536 % 256, v / 16777216 % 256]

/-! ## Resource id allocation (drawctl.go, NewDrawCtrler / AllocBuffer / FreeID) -/

/-- An operation on the id allocator of a session: an AllocBuffer call
or a FreeID call. -/
inductive AllocOp where
  | alloc
  | free (id : Nat)
deriving DecidableEq

/-- The ids handed out by a sequence of allocator operations starting
from the counter value nextId: AllocBuffer increments the uint32 counter
first and returns the incremented value, FreeID leaves the counter
untouched (drawctl.go lines 211 and 260). -/
def issuedIds (nextId : Nat) : List AllocOp → List Nat
  | [] => []
  | .alloc :: rest => ((nextId + 1) % 4294967296) :: issuedIds ((nextId + 1) % 4294967296) rest
  | .free _ :: rest => issuedIds nextId rest

/-- Ids issued over a whole session: NewDrawCtrler initializes the
counter to 2. -/
def sessionIssuedIds (ops : List AllocOp) : List Nat := issuedIds 2 ops

/-- Number of AllocBuffer calls in an operation sequence. -/
def countAllocs : List AllocOp → Nat
  | [] => 0
  | .alloc :: r => countAllocs r + 1
  | .free _ :: r => countAllocs r

/-! ## The b message of AllocBuffer (drawctl.go lines 208 to 256) -/

/-- Writes the bytes bs into msg starting at offset off, one byte per
position, as the PutUint32 and direct assignments of the Go code do on
the preallocated 50 byte buffer. -/
def setBytes (msg : List Nat) (off : Nat) : List Nat → List Nat
  | [] => msg
  | b :: bs => setBytes (msg.set off b) (off + 1) bs

/-- PutUint32 into msg at offset off. -/
def putU32 (msg : List Nat) (off : Nat) (x : Int) : List Nat := setBytes msg off (u32le x)

/-- Embedding of the 50 byte payload built by AllocBuffer: a zero
initialized buffer written at fixed offsets (newId at 0, the screenid
field at 4 to 7 left zero, refresh at 8, the RGBA channel descriptor
bytes 8 24 40 72 at 9 to 12, repl at 13, bounds at 14 to 29, clip at 30
to 45 and the four colour bytes at 46 to 49).  red, green, blue and
alpha are the 16 bit channel values returned by color.RGBA, of which
the code keeps the high byte. -/
def allocBufferMsg (newId : Nat) (refresh : Nat) (repl : Bool) (r clipr : Rect)
    (red green blue alpha : Nat) : List Nat :=
  let msg := List.replicate 50 0
  let msg := putU32 msg 0 (newId : Int)
  let msg := (msg.set 8 refresh).set 9 8
  let msg := ((msg.set 10 24).set 11 40).set 12 72
  let msg := if repl then msg.set 13 1 else msg
  let msg := putU32 msg 14 r.min.x
  let msg := putU32 msg 18 r.min.y
  let msg := putU32 msg 22 r.max.x
  let msg := putU32 msg 26 r.max.y
  let msg := putU32 msg 30 clipr.min.x
  let msg := putU32 msg 34 clipr.min.y
  let msg := putU32 msg 38 clipr.max.x
  let msg := putU32 msg 42 clipr.max.y
  let msg := msg.set 46 (alpha >>> 8 % 256)
  let msg := msg.set 47 (blue >>> 8 % 256)
  let msg := msg.set 48 (green >>> 8 % 256)
  let msg := msg.set 49 (red >>> 8 % 256)
  msg

/-- The 46 byte payload layout claimed by the specification for the b
message: newId(4) refresh(1) channelFormat(4) repl(1) bounds(16)
clip(16) color(4) at consecutive offsets, with no field between newId
and refresh. -/
def claimedAllocBufferMsg (newId : Nat) (refresh : Nat) (repl : Bool) (r clipr : Rect)
    (red green blue alpha : Nat) : List Nat :=
  u32le (newId : Int) ++ [refresh] ++ [8, 24, 40, 72] ++ [if repl then 1 else 0] ++
    u32le r.min.x ++ u32le r.min.y ++ u32le r.max.x ++ u32le r.max.y ++
    u32le clipr.min.x ++ u32le clipr.min.y ++ u32le clipr.max.x ++ u32le clipr.max.y ++
    [alpha >>> 8 % 256, blue >>> 8 % 256, green >>> 8 % 256, red >>> 8 % 256]

/-! ## ReadSubimage (drawctl.go lines 426 to 472)

The data channel is modelled by a read oracle: oracle k is the pair of
the byte count and the error flag returned by the k-th Read call.  The
embedding returns none when the code panics and some k when it returns
normally after k reads.  The Go code binds the byte count to the blank
identifier and only tests the error, so the byte counts of the oracle
cannot influence the result. -/

/-- Chunked read loop of ReadSubimage: one Read call per chunk of
lineSize rows, panicking (none) at the first read that reports an
error.  The Go loop does not terminate when lineSize is not positive
(the step would be zero or negative); the guard on lineSize makes the
model total and is the only deviation. -/
def readLoop (oracle : Nat → Nat × Bool) (lineSize maxY : Int) (k : Nat) (i : Int) :
    Option Nat :=
  if h : i < maxY ∧ 0 < lineSize then
    if (oracle k).2 then none
    else readLoop oracle lineSize maxY (k + 1) (i + lineSize)
  else some k
termination_by (maxY - i).toNat
decreasing_by
  omega

/-- Embedding of ReadSubimage: a single read when the requested byte
size is below the transfer unit, otherwise one read per whole row
chunk.  Go truncating integer division is Int.div. -/
def ReadSubimage (iounit : Int) (r : Rect) (oracle : Nat → Nat × Bool) : Option Nat :=
  let xSize := r.max.x - r.min.x
  let ySize := r.max.y - r.min.y
  if xSize * ySize * 4 < iounit then
    if (oracle 0).2 then none else some 1
  else
    readLoop oracle (Int.div (Int.div iounit 4) xSize) r.max.y 0 r.min.y

/-- Requested byte count of the single message read path: the pixel
buffer has 4 channel bytes per pixel of the rectangle. -/
def requestedBytes (r : Rect) : Nat :=
  ((r.max.x - r.min.x) * (r.max.y - r.min.y) * 4).toNat

/-! ## ReplaceSubimage (drawctl.go lines 321 to 417) -/

/-- A compressed Y message: destination id, the four rectangle fields
in the order written by the code (min x, min y plus block start, max x,
min y plus current row) and the compressed payload. -/
structure YMsg where
  dstid : Nat
  x0 : Int
  y0 : Int
  x1 : Int
  y1 : Int
  data : List Nat
deriving DecidableEq

/-- A message sent by ReplaceSubimage: either a raw y message or a
compressed Y message. -/
inductive UploadMsg where
  | plain (dstid : Nat) (x0 y0 x1 y1 : Int) (data : List Nat)
  | compressedMsg (m : YMsg)
deriving DecidableEq

/-- Loop of compressedReplaceSubimage: row i of the pixel buffer is
compressed; when the accumulated compressed bytes plus the new line
would reach the transfer unit, or the loop is at its last iteration,
the accumulated bytes are flushed as one Y message covering the rows
from blockYStart up to (excluding) i, and the new line starts the next
block.  xSize and ySize are the rectangle dimensions (their Go int
values are nonnegative whenever the loop body runs without panicking,
so they are taken as Nat). -/
def crsLoop (dstid : Nat) (iounit : Int) (rMinX rMinY rMaxX : Int) (xSize : Nat)
    (pixels : List Nat) (ySize i blockYStart : Nat) (compressed : List Nat) : List YMsg :=
  if h : i < ySize then
    let linePixels := (pixels.drop (i * 4 * xSize)).take (xSize * 4)
    let compressedLine := compress linePixels
    if iounit ≤ ((compressed.length + compressedLine.length : Nat) : Int) ∨ i = ySize - 1 then
      { dstid := dstid, x0 := rMinX, y0 := rMinY + blockYStart, x1 := rMaxX,
        y1 := rMinY + i, data := compressed } ::
        crsLoop dstid iounit rMinX rMinY rMaxX xSize pixels ySize (i + 1) i compressedLine
    else
      crsLoop dstid iounit rMinX rMinY rMaxX xSize pixels ySize (i + 1) blockYStart
        (compressed ++ compressedLine)
  else []
termination_by ySize - i

/-- Embedding of compressedReplaceSubimage: runs the row loop with
blockYStart 0 and an empty accumulator. -/
def compressedReplaceSubimage (dstid : Nat) (iounit : Int) (r : Rect) (pixels : List Nat) :
    List YMsg :=
  crsLoop dstid iounit r.min.x r.min.y r.max.x (r.max.x - r.min.x).toNat pixels
    (r.max.y - r.min.y).toNat 0 0 []

/-- Chunked plain upload loop of ReplaceSubimage: one y message per
lineSize rows, with the data taken from the pixel buffer at the offset
the code computes (i times row stride, with i the absolute row
coordinate).  As in readLoop, the guard on lineSize makes the
nonterminating Go case total. -/
def plainLoop (dstid : Nat) (rMinX rMaxX : Int) (xSize lineSize maxY : Int)
    (pixels : List Nat) (i : Int) : List UploadMsg :=
  if h : i < maxY ∧ 0 < lineSize then
    let endline := if maxY < i + lineSize then maxY else i + lineSize
    .plain dstid rMinX i rMaxX endline
        ((pixels.drop (i * xSize * 4).toNat).take ((xSize * (endline - i) * 4).toNat)) ::
      plainLoop dstid rMinX rMaxX xSize lineSize maxY pixels (i + lineSize)
  else []
termination_by (maxY - i).toNat
decreasing_by
  omega

/-- Embedding of ReplaceSubimage: the compressed path when the transfer
unit is small and the payload is above the threshold, one direct
message when everything fits, and the chunked plain path otherwise. -/
def ReplaceSubimage (dstid : Nat) (iounit : Int) (r : Rect) (pixels : List Nat) :
    List UploadMsg :=
  if iounit < 65535 ∧ 256 < pixels.length then
    (compressedReplaceSubimage dstid iounit r pixels).map .compressedMsg
  else
    let xSize := r.max.x - r.min.x
    let ySize := r.max.y - r.min.y
    if xSize * ySize * 4 + 21 < iounit then
      [.plain dstid r.min.x r.min.y r.max.x r.max.y
        (pixels.take (xSize * ySize * 4).toNat)]
    else
      plainLoop dstid r.min.x r.max.x xSize (Int.div (Int.div iounit 4) xSize) r.max.y
        pixels r.min.y

/-! ## Blit engine (uploadimpl.go)

The six float64 coefficients of f64.Aff3 are modelled as exact
rationals; the Go conversions int(f) truncate toward zero, which on
rationals is the quotient of numerator by denominator under truncating
integer division. -/

/-- A 2 by 3 affine matrix in row major order: row one is a b c, row
two is d e f (f64.Aff3). -/
structure Aff3 where
  a : Rat
  b : Rat
  c : Rat
  d : Rat
  e : Rat
  f : Rat
deriving DecidableEq

/-- Truncation toward zero, as the Go conversion from float64 to int. -/
def ratTrunc (q : Rat) : Int := Int.div q.num q.den

/-- The corner mapping helper of affineTransform in uploadimpl.go. -/
def mapPoint (m : Aff3) (p : Pt) : Pt :=
  { x := ratTrunc ((p.x : Rat) * m.a + (p.y : Rat) * m.b + m.c),
    y := ratTrunc ((p.x : Rat) * m.d + (p.y : Rat) * m.e + m.f) }

/-- The updateMinMax helper of affineTransform: widens the running min
and max corners by the point p, one coordinate at a time. -/
def updateMinMax (mn mx p : Pt) : Pt × Pt :=
  ({ x := if p.x < mn.x then p.x else mn.x, y := if p.y < mn.y then p.y else mn.y },
   { x := if mx.x < p.x then p.x else mx.x, y := if mx.y < p.y then p.y else mx.y })

/-- Embedding of affineTransform from uploadimpl.go: maps the four
corners (top left first, assumed to be both min and max, then top
right, bottom left, bottom right) and returns the bounding rectangle of
the truncated images. -/
def affineTransform (m : Aff3) (sr : Rect) : Rect :=
  let topLeft := mapPoint m sr.min
  let st := (topLeft, topLeft)
  let st := updateMinMax st.1 st.2 (mapPoint m ⟨sr.max.x, sr.min.y⟩)
  let st := updateMinMax st.1 st.2 (mapPoint m ⟨sr.min.x, sr.max.y⟩)
  let st := updateMinMax st.1 st.2 (mapPoint m ⟨sr.max.x, sr.max.y⟩)
  ⟨st.1, st.2⟩

/-- The identity affine matrix: rows 1 0 0 and 0 1 0. -/
def idAff3 : Aff3 := ⟨1, 0, 0, 0, 1, 0⟩

/-- Rectangle translated by a vector. -/
def rectTranslate (r : Rect) (v : Pt) : Rect :=
  ⟨⟨r.min.x + v.x, r.min.y + v.y⟩, ⟨r.max.x + v.x, r.max.y + v.y⟩⟩

/-- Compositing op passed through windowImpl.Draw. -/
inductive DOp where
  | src
  | over
deriving DecidableEq

/-- One DrawCtrler call issued by windowImpl.Draw, at the granularity
of the protocol client methods. -/
inductive DrawCmd where
  | draw (dst src mask : Nat) (r : Rect) (srcp maskp : Pt) (op : DOp)
  | readSubimage (src : Nat) (r : Rect)
  | allocBuffer (id : Nat) (r clipr : Rect)
  | replaceSubimage (dst : Nat) (r : Rect)
  | freeId (id : Nat)
deriving DecidableEq

/-- Embedding of windowImpl.Draw from uploadimpl.go as the trace of
DrawCtrler calls it issues.  wid and tid are the window and source
texture image ids, nextId the allocator counter (the transient resource
of the general path gets the next id).  The fast path is taken exactly
when the four linear coefficients equal 1 0 0 1; it issues a single
composite with the texture as both source and mask at the rectangle
anchored at the truncated translation, sized like sr. -/
def windowDraw (wid tid nextId : Nat) (m : Aff3) (sr : Rect) (op : DOp) : List DrawCmd :=
  if m.a = 1 ∧ m.b = 0 ∧ m.d = 0 ∧ m.e = 1 then
    [.draw wid tid tid
      ⟨⟨ratTrunc m.c, ratTrunc m.f⟩,
        ⟨ratTrunc m.c + (sr.max.x - sr.min.x), ratTrunc m.f + (sr.max.y - sr.min.y)⟩⟩
      sr.min ⟨0, 0⟩ op]
  else
    let newRectangle := affineTransform m sr
    let newOrigin : Rect :=
      ⟨⟨0, 0⟩, ⟨newRectangle.max.x - newRectangle.min.x,
        newRectangle.max.y - newRectangle.min.y⟩⟩
    let newImageId := (nextId + 1) % 4294967296
    [.readSubimage tid sr,
      .allocBuffer newImageId newOrigin newOrigin,
      .replaceSubimage newImageId newOrigin,
      .draw wid newImageId newImageId newRectangle ⟨0, 0⟩ ⟨0, 0⟩ op,
      .freeId newImageId]

/-! ## Theorems about the id allocator (C5) -/

/-- Closed form of the issued ids as long as the uint32 counter does
not wrap: starting from counter value c, the n-th allocation returns
c + n + 1 and frees have no effect. -/
lemma issuedIds_formula : ∀ (ops : List AllocOp) (c : Nat), c + countAllocs ops < 4294967296 →
    issuedIds c ops = (List.range (countAllocs ops)).map (fun n => c + n + 1) := by
  intro ops
  induction ops with
  | nil => intro c _; simp [issuedIds, countAllocs]
  | cons op rest ih =>
    intro c hc
    cases op with
    | alloc =>
      simp only [issuedIds, countAllocs] at hc ⊢
      have hlt : c + 1 < 4294967296 := by omega
      rw [Nat.mod_eq_of_lt hlt, ih (c + 1) (by omega), List.range_succ_eq_map,
        List.map_cons, List.map_map]
      refine congrArg₂ _ rfl ?_
      apply List.map_congr_left
      intro a _
      simp [Function.comp]
      omega
    | free id =>
      simp only [issuedIds, countAllocs] at hc ⊢
      exact ih c hc

/-- The ids of a session with fewer than 2 ^ 32 - 2 allocations are
pairwise strictly increasing (so no id is ever issued twice and frees
never cause reuse). -/
lemma sessionIssuedIds_increasing (ops : List AllocOp) (h : countAllocs ops + 2 < 4294967296) :
    (sessionIssuedIds ops).Pairwise (· < ·) := by
  rw [sessionIssuedIds, issuedIds_formula ops 2 (by omega)]
  exact List.Pairwise.map _ (fun a b hab => by omega) (List.pairwise_lt_range _)

/-- C5 (code bug): the first AllocBuffer call of a session returns id 3,
not 2, because drawctl.go increments nextId (initialized to 2 by
NewDrawCtrler) before using it; subsequent calls count up by one and a
FreeID in between does not make an id available again. -/
theorem firstAllocId_is_three :
    sessionIssuedIds [.alloc] = [3] ∧ (3 : Nat) ≠ 2 ∧
      sessionIssuedIds [.alloc, .free 3, .alloc, .alloc] = [3, 4, 5] := by
  decide

/-! ## Theorems about the b message layout (C9) -/

/-- C9 counterexample: at a concrete call the payload built by
AllocBuffer differs from the claimed 46 byte layout; the real payload
has 50 bytes (a 4 byte screenid field sits between newId and refresh),
the claimed one 46. -/
theorem allocBufferMsg_layout_cex :
    allocBufferMsg 3 0 false ⟨⟨0, 0⟩, ⟨1, 1⟩⟩ ⟨⟨0, 0⟩, ⟨1, 1⟩⟩ 0 0 0 0 ≠
      claimedAllocBufferMsg 3 0 false ⟨⟨0, 0⟩, ⟨1, 1⟩⟩ ⟨⟨0, 0⟩, ⟨1, 1⟩⟩ 0 0 0 0 ∧
    (allocBufferMsg 3 0 false ⟨⟨0, 0⟩, ⟨1, 1⟩⟩ ⟨⟨0, 0⟩, ⟨1, 1⟩⟩ 0 0 0 0).length = 50 ∧
    (claimedAllocBufferMsg 3 0 false ⟨⟨0, 0⟩, ⟨1, 1⟩⟩ ⟨⟨0, 0⟩, ⟨1, 1⟩⟩ 0 0 0 0).length = 46 := by
  refine ⟨?_, by decide, by decide⟩
  decide

lemma u32le_length (x : Int) : (u32le x).length = 4 := by
  simp [u32le]

lemma setBytes_append : ∀ (bs pre post : List Nat), bs.length ≤ post.length →
    setBytes (pre ++ post) pre.length bs = pre ++ (bs ++ post.drop bs.length) := by
  intro bs
  induction bs with
  | nil => intro pre post _; simp [setBytes]
  | cons b bs2 ih =>
    intro pre post h
    cases post with
    | nil => simp at h
    | cons p0 post2 =>
      rw [setBytes, List.set_append, if_neg (lt_irrefl _), Nat.sub_self, List.set_cons_zero]
      have hshape : pre ++ b :: post2 = (pre ++ [b]) ++ post2 := by simp
      have hlen : pre.length + 1 = (pre ++ [b]).length := by simp
      rw [hshape, hlen, ih (pre ++ [b]) post2 (by simpa using h)]
      simp

lemma putU32_first (k : Nat) (x : Int) (h : 4 ≤ k) :
    putU32 (List.replicate k 0) 0 x = u32le x ++ List.replicate (k - 4) 0 := by
  have := setBytes_append (u32le x) [] (List.replicate k 0)
    (by rw [u32le_length]; simpa using h)
  simp only [List.nil_append, List.length_nil] at this
  simp only [putU32]
  rw [this, u32le_length, List.drop_replicate]

lemma putU32_at (pre : List Nat) (k gap : Nat) (x : Int) (off : Nat)
    (hoff : off = pre.length + gap) (h : gap + 4 ≤ k) :
    putU32 (pre ++ List.replicate k 0) off x =
      (pre ++ (List.replicate gap 0 ++ u32le x)) ++ List.replicate (k - (gap + 4)) 0 := by
  subst hoff
  have hsplit : List.replicate k (0 : Nat) =
      List.replicate gap 0 ++ List.replicate (k - gap) 0 := by
    rw [← List.replicate_add]
    congr 1
    omega
  simp only [putU32]
  rw [hsplit, ← List.append_assoc]
  have h2 : pre.length + gap = (pre ++ List.replicate gap 0).length := by simp
  rw [h2, setBytes_append (u32le x) _ _ (by rw [u32le_length]; simp; omega)]
  rw [u32le_length, List.drop_replicate]
  have h3 : k - gap - 4 = k - (gap + 4) := by omega
  rw [h3]
  simp [List.append_assoc]

lemma setb_at (pre : List Nat) (k gap b : Nat) (off : Nat)
    (hoff : off = pre.length + gap) (h : gap + 1 ≤ k) :
    (pre ++ List.replicate k 0).set off b =
      (pre ++ (List.replicate gap 0 ++ [b])) ++ List.replicate (k - (gap + 1)) 0 := by
  subst hoff
  have hsplit : List.replicate k (0 : Nat) =
      List.replicate gap 0 ++ List.replicate (k - gap) 0 := by
    rw [← List.replicate_add]
    congr 1
    omega
  rw [hsplit, ← List.append_assoc, List.set_append, if_neg (by simp)]
  have h2 : pre.length + gap - (pre ++ List.replicate gap 0).length = 0 := by simp
  rw [h2]
  rw [show k - gap = (k - gap - 1) + 1 by omega, List.replicate_succ, List.set_cons_zero]
  have h3 : k - gap - 1 = k - (gap + 1) := by omega
  rw [h3]
  simp [List.append_assoc]

/-- C9 amended: the payload of the b message is 50 bytes, laid out as
newId(4) screenid(4, always zero) refresh(1) channelFormat(4) repl(1)
bounds(4 by 4) clip(4 by 4) color(4) at consecutive offsets, every
multi byte integer field little endian. -/
theorem allocBufferMsg_layout (newId refresh : Nat) (repl : Bool) (r clipr : Rect)
    (red green blue alpha : Nat) :
    allocBufferMsg newId refresh repl r clipr red green blue alpha =
      u32le (newId : Int) ++ u32le 0 ++ [refresh] ++ [8, 24, 40, 72] ++
        [if repl then 1 else 0] ++
        u32le r.min.x ++ u32le r.min.y ++ u32le r.max.x ++ u32le r.max.y ++
        u32le clipr.min.x ++ u32le clipr.min.y ++ u32le clipr.max.x ++ u32le clipr.max.y ++
        [alpha >>> 8 % 256, blue >>> 8 % 256, green >>> 8 % 256, red >>> 8 % 256] := by
  have hz : List.replicate 4 (0 : Nat) = u32le 0 := by simp [u32le, List.replicate]
  cases repl with
  | false =>
    simp only [allocBufferMsg, Bool.false_eq_true, if_false]
    rw [putU32_first 50 _ (by norm_num)]
    rw [setb_at _ _ 4 _ 8 (by simp [u32le_length]) (by norm_num)]
    rw [setb_at _ _ 0 _ 9 (by simp [u32le_length]) (by norm_num)]
    rw [setb_at _ _ 0 _ 10 (by simp [u32le_length]) (by norm_num)]
    rw [setb_at _ _ 0 _ 11 (by simp [u32le_length]) (by norm_num)]
    rw [setb_at _ _ 0 _ 12 (by simp [u32le_length]) (by norm_num)]
    rw [putU32_at _ _ 1 _ 14 (by simp [u32le_length]) (by norm_num)]
    rw [putU32_at _ _ 0 _ 18 (by simp [u32le_length]) (by norm_num)]
    rw [putU32_at _ _ 0 _ 22 (by simp [u32le_length]) (by norm_num)]
    rw [putU32_at _ _ 0 _ 26 (by simp [u32le_length]) (by norm_num)]
    rw [putU32_at _ _ 0 _ 30 (by simp [u32le_length]) (by norm_num)]
    rw [putU32_at _ _ 0 _ 34 (by simp [u32le_length]) (by norm_num)]
    rw [putU32_at _ _ 0 _ 38 (by simp [u32le_length]) (by norm_num)]
    rw [putU32_at _ _ 0 _ 42 (by simp [u32le_length]) (by norm_num)]
    rw [setb_at _ _ 0 _ 46 (by simp [u32le_length]) (by norm_num)]
    rw [setb_at _ _ 0 _ 47 (by simp [u32le_length]) (by norm_num)]
    rw [setb_at _ _ 0 _ 48 (by simp [u32le_length]) (by norm_num)]
    rw [setb_at _ _ 0 _ 49 (by simp [u32le_length]) (by norm_num)]
    rw [← hz]
    simp [List.replicate, List.append_assoc]
  | true =>
    simp only [allocBufferMsg, if_true]
    rw [putU32_first 50 _ (by norm_num)]
    rw [setb_at _ _ 4 _ 8 (by simp [u32le_length]) (by norm_num)]
    rw [setb_at _ _ 0 _ 9 (by simp [u32le_length]) (by norm_num)]
    rw [setb_at _ _ 0 _ 10 (by simp [u32le_length]) (by norm_num)]
    rw [setb_at _ _ 0 _ 11 (by simp [u32le_length]) (by norm_num)]
    rw [setb_at _ _ 0 _ 12 (by simp [u32le_length]) (by norm_num)]
    rw [setb_at _ _ 0 _ 13 (by simp [u32le_length]) (by norm_num)]
    rw [putU32_at _ _ 0 _ 14 (by simp [u32le_length]) (by norm_num)]
    rw [putU32_at _ _ 0 _ 18 (by simp [u32le_length]) (by norm_num)]
    rw [putU32_at _ _ 0 _ 22 (by simp [u32le_length]) (by norm_num)]
    rw [putU32_at _ _ 0 _ 26 (by simp [u32le_length]) (by norm_num)]
    rw [putU32_at _ _ 0 _ 30 (by simp [u32le_length]) (by norm_num)]
    rw [putU32_at _ _ 0 _ 34 (by simp [u32le_length]) (by norm_num)]
    rw [putU32_at _ _ 0 _ 38 (by simp [u32le_length]) (by norm_num)]
    rw [putU32_at _ _ 0 _ 42 (by simp [u32le_length]) (by norm_num)]
    rw [setb_at _ _ 0 _ 46 (by simp [u32le_length]) (by norm_num)]
    rw [setb_at _ _ 0 _ 47 (by simp [u32le_length]) (by norm_num)]
    rw [setb_at _ _ 0 _ 48 (by simp [u32le_length]) (by norm_num)]
    rw [setb_at _ _ 0 _ 49 (by simp [u32le_length]) (by norm_num)]
    rw [← hz]
    simp [List.replicate, List.append_assoc]

/-! ## Theorems about ReadSubimage (C6) -/

lemma readLoop_congr (o1 o2 : Nat → Nat × Bool) (h : ∀ k, (o1 k).2 = (o2 k).2)
    (lineSize maxY : Int) :
    ∀ n (i : Int) (k : Nat), (maxY - i).toNat ≤ n →
      readLoop o1 lineSize maxY k i = readLoop o2 lineSize maxY k i := by
  intro n
  induction n with
  | zero =>
    intro i k hn
    have hng : ¬ (i < maxY ∧ 0 < lineSize) := fun hc => absurd hc.1 (by omega)
    conv_lhs => rw [readLoop]
    conv_rhs => rw [readLoop]
    rw [dif_neg hng, dif_neg hng]
  | succ n ih =>
    intro i k hn
    conv_lhs => rw [readLoop]
    conv_rhs => rw [readLoop]
    by_cases hg : i < maxY ∧ 0 < lineSize
    · rw [dif_pos hg, dif_pos hg, h k]
      cases ho : (o2 k).2
      · simp only [Bool.false_eq_true, if_false]
        exact ih (i + lineSize) (k + 1) (by omega)
      · simp
    · rw [dif_neg hg, dif_neg hg]

lemma readLoop_none (o : Nat → Nat × Bool) (lineSize maxY : Int) :
    ∀ n (i : Int) (k : Nat), (maxY - i).toNat ≤ n →
      readLoop o lineSize maxY k i = none → ∃ j, (o j).2 = true := by
  intro n
  induction n with
  | zero =>
    intro i k hn hnone
    rw [readLoop, dif_neg (by omega)] at hnone
    exact absurd hnone (by simp)
  | succ n ih =>
    intro i k hn hnone
    rw [readLoop] at hnone
    by_cases hg : i < maxY ∧ 0 < lineSize
    · rw [dif_pos hg] at hnone
      cases ho : (o k).2
      · rw [ho] at hnone
        simp only [Bool.false_eq_true, if_false] at hnone
        exact ih (i + lineSize) (k + 1) (by omega) hnone
      · exact ⟨k, ho⟩
    · rw [dif_neg hg] at hnone
      exact absurd hnone (by simp)

/-- C6 amended: ReadSubimage aborts (panics) exactly when a read call
reports an error, and its behaviour depends on the read results only
through their error flags: the byte counts are bound to the blank
identifier and discarded, so a short read that reports no error is
silently accepted rather than treated as fatal.  A read that reports an
error is never retried: the abort is immediate. -/
theorem ReadSubimage_error_flag_only (iounit : Int) (r : Rect) (o1 o2 : Nat → Nat × Bool)
    (h : ∀ k, (o1 k).2 = (o2 k).2) :
    ReadSubimage iounit r o1 = ReadSubimage iounit r o2 ∧
      (ReadSubimage iounit r o1 = none → ∃ k, (o1 k).2 = true) := by
  rw [ReadSubimage, ReadSubimage]
  by_cases hsmall : (r.max.x - r.min.x) * (r.max.y - r.min.y) * 4 < iounit
  · simp only [if_pos hsmall]
    rw [h 0]
    constructor
    · rfl
    · intro hnone
      cases ho : (o2 0).2
      · rw [ho] at hnone
        simp at hnone
      · exact ⟨0, by rw [h 0]; exact ho⟩
  · simp only [if_neg hsmall]
    constructor
    · exact readLoop_congr o1 o2 h _ _ ((r.max.y - r.min.y).toNat + 1) r.min.y 0 (by omega)
    · exact readLoop_none o1 _ _ ((r.max.y - r.min.y).toNat + 1) r.min.y 0 (by omega)

/-- Witness for the amended C6 theorem at a concrete rectangle and two
oracles that differ only in byte counts. -/
theorem ReadSubimage_error_flag_only_witness :
    ReadSubimage 65536 ⟨⟨0, 0⟩, ⟨1, 1⟩⟩ (fun _ : Nat => ((7 : Nat), false)) =
        ReadSubimage 65536 ⟨⟨0, 0⟩, ⟨1, 1⟩⟩ (fun _ : Nat => ((0 : Nat), false)) ∧
      (ReadSubimage 65536 ⟨⟨0, 0⟩, ⟨1, 1⟩⟩ (fun _ : Nat => ((7 : Nat), false)) = none →
        ∃ k, ((fun _ : Nat => ((7 : Nat), false)) k).2 = true) :=
  ReadSubimage_error_flag_only 65536 ⟨⟨0, 0⟩, ⟨1, 1⟩⟩ (fun _ : Nat => ((7 : Nat), false))
    (fun _ : Nat => ((0 : Nat), false)) (fun _ => rfl)

/-- C6 counterexample: a read that returns 0 of the 4 requested bytes
but reports no error is accepted silently, the function completes
normally after that single read instead of treating the short read as
fatal. -/
theorem ReadSubimage_accepts_short_read :
    ReadSubimage 65536 ⟨⟨0, 0⟩, ⟨1, 1⟩⟩ (fun _ => (0, false)) = some 1 ∧
      requestedBytes ⟨⟨0, 0⟩, ⟨1, 1⟩⟩ = 4 := by
  constructor
  · rfl
  · rfl

/-! ## Theorems about the compressed upload path (C1) -/

lemma crsLoop_y1_lt (dstid : Nat) (iounit rMinX rMinY rMaxX : Int) (xSize : Nat)
    (pixels : List Nat) (ySize : Nat) :
    ∀ n i blockYStart compressed, ySize - i ≤ n →
      ∀ m ∈ crsLoop dstid iounit rMinX rMinY rMaxX xSize pixels ySize i blockYStart
        compressed, m.y1 < rMinY + (ySize : Int) := by
  intro n
  induction n with
  | zero =>
    intro i blockYStart compressed hn
    rw [crsLoop, dif_neg (by omega)]
    simp
  | succ n ih =>
    intro i blockYStart compressed hn
    by_cases hi : i < ySize
    · rw [crsLoop, dif_pos hi]
      dsimp only
      split
      · intro m hm
        rcases List.mem_cons.mp hm with hm | hm
        · subst hm
          dsimp only
          omega
        · exact ih (i + 1) i _ (by omega) m hm
      · intro m hm
        exact ih (i + 1) blockYStart _ (by omega) m hm
    · rw [crsLoop, dif_neg hi]
      simp

set_option maxRecDepth 40000 in
unseal crsLoop compressFrom outerScan in
/-- C1 (code bug): the compressed upload path never transmits the last
row of the rectangle.  Every Y message flushed by the loop ends at
y1 = r.min.y + i with i at most ySize - 1, so the union of the message
rectangles never reaches r.max.y; concretely, a 1 by 65 pixel upload
with transfer unit 1000 (which selects the compressed path, as does the
50 by 50 upload of the claim) produces exactly one message covering
rows 0 to 63 of the 65 row rectangle, and the data of row 64 is left in
the accumulator and dropped. -/
theorem compressedReplaceSubimage_drops_last_row (dstid : Nat) (iounit : Int) (r : Rect)
    (pixels : List Nat) :
    (∀ m ∈ compressedReplaceSubimage dstid iounit r pixels,
        m.y1 < r.min.y + ((r.max.y - r.min.y).toNat : Int)) ∧
      (compressedReplaceSubimage 5 1000 ⟨⟨0, 0⟩, ⟨1, 65⟩⟩ (List.replicate 260 0)).map
          (fun m => (m.y0, m.y1)) = [(0, 64)] ∧
      ReplaceSubimage 5 1000 ⟨⟨0, 0⟩, ⟨1, 65⟩⟩ (List.replicate 260 0) =
        (compressedReplaceSubimage 5 1000 ⟨⟨0, 0⟩, ⟨1, 65⟩⟩
          (List.replicate 260 0)).map .compressedMsg := by
  refine ⟨?_, ?_, ?_⟩
  · intro m hm
    exact crsLoop_y1_lt dstid iounit r.min.x r.min.y r.max.x (r.max.x - r.min.x).toNat
      pixels (r.max.y - r.min.y).toNat ((r.max.y - r.min.y).toNat) 0 0 [] (by omega) m hm
  · decide
  · rw [ReplaceSubimage, if_pos (by constructor <;> decide)]

set_option maxRecDepth 40000 in
unseal crsLoop compressFrom outerScan in
/-- Witness for the universally quantified part of the C1 theorem: the
single message of a 1 by 1 compressed upload ends one row short of the
rectangle. -/
theorem compressedReplaceSubimage_drops_last_row_witness :
    (⟨5, 0, 0, 1, 0, []⟩ : YMsg) ∈ compressedReplaceSubimage 5 1000 ⟨⟨0, 0⟩, ⟨1, 1⟩⟩ [] ∧
      (⟨5, 0, 0, 1, 0, []⟩ : YMsg).y1 <
        (⟨⟨0, 0⟩, ⟨1, 1⟩⟩ : Rect).min.y +
          ((((⟨⟨0, 0⟩, ⟨1, 1⟩⟩ : Rect).max.y - (⟨⟨0, 0⟩, ⟨1, 1⟩⟩ : Rect).min.y).toNat : Nat) :
            Int) :=
  ⟨by decide,
    (compressedReplaceSubimage_drops_last_row 5 1000 ⟨⟨0, 0⟩, ⟨1, 1⟩⟩ []).1 _ (by decide)⟩

/-! ## Theorems about the blit engine (C7, C8) -/

lemma mapPoint_id (p : Pt) : mapPoint idAff3 p = p := by
  rcases p with ⟨px, py⟩
  have hx : ((px : Rat) * 1 + (py : Rat) * 0 + 0) = (px : Rat) := by ring
  have hy : ((px : Rat) * 0 + (py : Rat) * 1 + 0) = (py : Rat) := by ring
  simp only [mapPoint, idAff3, hx, hy, ratTrunc]
  simp [Rat.num_intCast, Rat.den_intCast, Int.div_one]

/-- C8 counterexample: on a rectangle whose min corner is not
componentwise below its max corner, affineTransform with the identity
matrix returns the swapped bounding rectangle, not the input. -/
theorem affineTransform_id_cex :
    affineTransform idAff3 ⟨⟨1, 0⟩, ⟨0, 0⟩⟩ = ⟨⟨0, 0⟩, ⟨1, 0⟩⟩ ∧
      (⟨⟨0, 0⟩, ⟨1, 0⟩⟩ : Rect) ≠ ⟨⟨1, 0⟩, ⟨0, 0⟩⟩ := by
  constructor
  · rw [affineTransform]
    simp only [mapPoint_id]
    decide
  · decide

/-- C8 amended: affineTransform with the identity matrix is the
identity on every canonical rectangle (min componentwise at most max);
on non canonical rectangles the min and max bookkeeping swaps the
corners, as the counterexample shows. -/
theorem affineTransform_id (sr : Rect) (hx : sr.min.x ≤ sr.max.x)
    (hy : sr.min.y ≤ sr.max.y) : affineTransform idAff3 sr = sr := by
  rcases sr with ⟨⟨ax, ay⟩, ⟨bx, cy⟩⟩
  dsimp only at hx hy
  rw [affineTransform]
  simp only [mapPoint_id]
  simp only [updateMinMax]
  split_ifs <;> simp_all <;> omega

/-- Witness for the amended C8 theorem at a concrete canonical
rectangle. -/
theorem affineTransform_id_witness :
    (0 : Int) ≤ 2 ∧ (1 : Int) ≤ 3 ∧
      affineTransform idAff3 ⟨⟨0, 1⟩, ⟨2, 3⟩⟩ = ⟨⟨0, 1⟩, ⟨2, 3⟩⟩ :=
  ⟨by decide, by decide, affineTransform_id ⟨⟨0, 1⟩, ⟨2, 3⟩⟩ (by decide) (by decide)⟩

/-- C7: whenever the four linear coefficients of the matrix are exactly
1 0 0 1, windowImpl.Draw issues exactly one composite, with the source
texture id as both source and mask, at a destination rectangle that is
a pure integer translation of the source rectangle (anchored at the
truncated translation coefficients), and no read back, allocation or
upload command. -/
theorem windowDraw_fast_path (wid tid nextId : Nat) (m : Aff3) (sr : Rect) (op : DOp)
    (ha : m.a = 1) (hb : m.b = 0) (hd : m.d = 0) (he : m.e = 1) :
    windowDraw wid tid nextId m sr op =
      [.draw wid tid tid
        (rectTranslate sr ⟨ratTrunc m.c - sr.min.x, ratTrunc m.f - sr.min.y⟩)
        sr.min ⟨0, 0⟩ op] := by
  rw [windowDraw, if_pos ⟨ha, hb, hd, he⟩]
  rcases sr with ⟨⟨ax, ay⟩, ⟨bx, cy⟩⟩
  simp only [rectTranslate, List.cons.injEq, DrawCmd.draw.injEq, Rect.mk.injEq, Pt.mk.injEq,
    and_true, true_and]
  refine ⟨⟨by omega, by omega⟩, by omega, by omega⟩

/-- Witness for the C7 theorem at a concrete pure translation matrix
and rectangle. -/
theorem windowDraw_fast_path_witness :
    windowDraw 1 2 9 ⟨1, 0, 5, 0, 1, 7⟩ ⟨⟨2, 3⟩, ⟨4, 9⟩⟩ .over =
      [.draw 1 2 2
        (rectTranslate ⟨⟨2, 3⟩, ⟨4, 9⟩⟩ ⟨ratTrunc 5 - 2, ratTrunc 7 - 3⟩) ⟨2, 3⟩ ⟨0, 0⟩ .over] :=
  windowDraw_fast_path 1 2 9 ⟨1, 0, 5, 0, 1, 7⟩ ⟨⟨2, 3⟩, ⟨4, 9⟩⟩ .over rfl rfl rfl rfl

end DevDraw
